import Mathlib

/-!
Verification development for the OdooGuard backup rotation script
(`backup.py`).  The Python source is shallowly embedded below:

* the timestamp codec (`get_backup_name`, `parse_backup_timestamp`),
  including a faithful model of `datetime.strptime` with the
  `"%Y%m%d_%H%M%S"` format (CPython `_strptime` regular expression,
  alternatives tried in order with backtracking, trailing-data check,
  and the `datetime` constructor's range validation), and of
  `pathlib.Path.stem` / `str.split("_")`;
* the retention engine `rotate_backups`: glob filtering, sorting,
  parsing into entries, the daily/weekly/monthly classification with a
  single reference instant `now`, the per-bucket representative
  dictionaries, the keep set and the delete loop.

`datetime` values are represented by their calendar fields; comparison
of two datetimes is modelled by comparing their second counts
(`tsSec`, the exact CPython `toordinal`-based linearisation), and the
evaluation instant `now` (read from the system clock in the source) is
passed explicitly as a second count.  File paths all live in one
directory, so a file is identified by its name.
-/

namespace OdooGuard

/-- A `datetime.datetime` value, second precision (the codec never
produces sub-second values). -/
structure DateTime where
  year : Nat
  month : Nat
  day : Nat
  hour : Nat
  minute : Nat
  second : Nat
deriving DecidableEq, Repr

/-- CPython `_is_leap`. -/
def isLeap (y : Nat) : Bool := y % 4 == 0 && (y % 100 != 0 || y % 400 == 0)

/-- CPython `_DAYS_IN_MONTH` (index 0 unused). -/
def monthDays : List Nat := [0, 31, 28, 31, 30, 31, 30, 31, 31, 30, 31, 30, 31]

/-- CPython `_days_in_month`. -/
def daysInMonth (y m : Nat) : Nat :=
  if m == 2 && isLeap y then 29 else monthDays.getD m 0

/-- CPython `_DAYS_BEFORE_MONTH` (index 0 unused). -/
def monthOffsets : List Nat := [0, 0, 31, 59, 90, 120, 151, 181, 212, 243, 273, 304, 334]

/-- CPython `_days_before_month`. -/
def daysBeforeMonth (y m : Nat) : Nat :=
  monthOffsets.getD m 0 + (if 2 < m && isLeap y then 1 else 0)

/-- CPython `_days_before_year`. -/
def daysBeforeYear (y : Nat) : Nat :=
  let yp := y - 1
  365 * yp + yp / 4 - yp / 100 + yp / 400

/-- CPython `datetime.toordinal`: proleptic Gregorian day number,
day 1 = 0001-01-01. -/
def toOrdinal (t : DateTime) : Nat :=
  daysBeforeYear t.year + daysBeforeMonth t.year t.month + t.day

/-- Seconds-since-(ordinal 0) linearisation of a datetime.  For valid
datetimes this is exactly the order (and difference) used by CPython
`datetime` comparison and `timedelta` arithmetic. -/
def tsSec (t : DateTime) : Int :=
  ((toOrdinal t * 86400 + t.hour * 3600 + t.minute * 60 + t.second : Nat) : Int)

/-- Field ranges accepted by the `datetime` constructor (year capped at
9999 = `datetime.MAXYEAR`). -/
def DateTime.Valid (t : DateTime) : Prop :=
  1 ≤ t.year ∧ t.year ≤ 9999 ∧ 1 ≤ t.month ∧ t.month ≤ 12 ∧
  1 ≤ t.day ∧ t.day ≤ daysInMonth t.year t.month ∧
  t.hour ≤ 23 ∧ t.minute ≤ 59 ∧ t.second ≤ 59

instance (t : DateTime) : Decidable t.Valid := by
  unfold DateTime.Valid; infer_instance

/-- `_days_before_year` over `Int` (Python `//` is floor division),
needed by the ISO-calendar computation which may look at `year - 1`. -/
def daysBeforeYearZ (y : Int) : Int :=
  let yp := y - 1
  365 * yp + yp.fdiv 4 - yp.fdiv 100 + yp.fdiv 400

/-- CPython `_isoweek1monday`: ordinal of the Monday starting ISO week 1
of `y`. -/
def isoweek1monday (y : Int) : Int :=
  let firstday := daysBeforeYearZ y + 1
  let firstweekday := (firstday + 6).emod 7
  let week1monday := firstday - firstweekday
  if 3 < firstweekday then week1monday + 7 else week1monday

/-- CPython `date.isocalendar`, restricted to the (year, week) pair the
rotation code uses as its weekly bucket key. -/
def isocalendar (t : DateTime) : Int × Int :=
  let year : Int := t.year
  let today : Int := toOrdinal t
  let week := (today - isoweek1monday year).fdiv 7
  if week < 0 then
    (year - 1, (today - isoweek1monday (year - 1)).fdiv 7 + 1)
  else if 52 ≤ week then
    if isoweek1monday (year + 1) ≤ today then (year + 1, 1) else (year, week + 1)
  else (year, week + 1)

/-! ### Timestamp codec -/

/-- Decimal digit character (used with arguments ≤ 9 only, matching
zero-padded `strftime` output). -/
def dchar : Nat → Char
  | 0 => '0' | 1 => '1' | 2 => '2' | 3 => '3' | 4 => '4'
  | 5 => '5' | 6 => '6' | 7 => '7' | 8 => '8' | _ => '9'

/-- Two-digit zero-padded field (`%m`, `%d`, `%H`, `%M`, `%S`). -/
def pad2 (n : Nat) : List Char := [dchar (n / 10), dchar (n % 10)]

/-- Four-digit zero-padded year (`%Y`; the spec fixes the width-4
zero-padded reading of `YYYY`, and `datetime` years are ≤ 9999). -/
def pad4 (n : Nat) : List Char :=
  [dchar (n / 1000), dchar (n / 100 % 10), dchar (n / 10 % 10), dchar (n % 10)]

/-- `now.strftime("%Y%m%d_%H%M%S")`. -/
def fmtCore (t : DateTime) : List Char :=
  pad4 t.year ++ pad2 t.month ++ pad2 t.day ++
    '_' :: (pad2 t.hour ++ pad2 t.minute ++ pad2 t.second)

/-- `get_backup_name` from `backup.py` (`f"{db_name}_{ts}"`); the
source reads the clock for `ts`, modelled here by the explicit
parameter `now`. -/
def get_backup_name (db_name : String) (now : DateTime) : String :=
  db_name ++ "_" ++ String.mk (fmtCore now)

/-- Value of a decimal digit character, `none` otherwise. -/
def digitVal (c : Char) : Option Nat :=
  if '0' ≤ c ∧ c ≤ '9' then some (c.toNat - 48) else none

/-- One alternative of a `_strptime` field: consume a prefix, return the
numeric value and the rest. -/
def StrAlt : Type := List Char → Option (Nat × List Char)

/-- Single digit with value in `[lo, hi]` (regex pieces such as
`[0-5]`, `[1-9]`, `\d`). -/
def matchDigit (lo hi : Nat) : StrAlt := fun s =>
  match s with
  | [] => none
  | c :: r =>
    match digitVal c with
    | none => none
    | some v => if lo ≤ v ∧ v ≤ hi then some (v, r) else none

/-- Two-digit alternative (e.g. `1[0-2]`), value `10·a + b`. -/
def seq2 (a b : StrAlt) : StrAlt := fun s =>
  match a s with
  | none => none
  | some (v, r) =>
    match b r with
    | none => none
    | some (w, r2) => some (v * 10 + w, r2)

/-- The `%Y` pattern `\d\d\d\d`. -/
def matchYear : StrAlt := fun s =>
  match matchDigit 0 9 s with
  | none => none
  | some (a, r1) =>
    match matchDigit 0 9 r1 with
    | none => none
    | some (b, r2) =>
      match matchDigit 0 9 r2 with
      | none => none
      | some (c, r3) =>
        match matchDigit 0 9 r3 with
        | none => none
        | some (d, r4) => some (((a * 10 + b) * 10 + c) * 10 + d, r4)

/-- A literal character in the format (the `_` of `"%Y%m%d_%H%M%S"`). -/
def matchLit (ch : Char) : StrAlt := fun s =>
  match s with
  | [] => none
  | c :: r => if c = ch then some (0, r) else none

/-- CPython `_strptime` regex for `%Y`. -/
def altsY : List StrAlt := [matchYear]

/-- CPython `_strptime` regex for `%m`: `1[0-2]|0[1-9]|[1-9]`. -/
def altsMonth : List StrAlt :=
  [seq2 (matchDigit 1 1) (matchDigit 0 2), seq2 (matchDigit 0 0) (matchDigit 1 9),
    matchDigit 1 9]

/-- CPython `_strptime` regex for `%d`: `3[01]|[12]\d|0[1-9]|[1-9]`. -/
def altsDay : List StrAlt :=
  [seq2 (matchDigit 3 3) (matchDigit 0 1), seq2 (matchDigit 1 2) (matchDigit 0 9),
    seq2 (matchDigit 0 0) (matchDigit 1 9), matchDigit 1 9]

/-- CPython `_strptime` regex for `%H`: `2[0-3]|[0-1]\d|\d`. -/
def altsHour : List StrAlt :=
  [seq2 (matchDigit 2 2) (matchDigit 0 3), seq2 (matchDigit 0 1) (matchDigit 0 9),
    matchDigit 0 9]

/-- CPython `_strptime` regex for `%M`: `[0-5]\d|\d`. -/
def altsMin : List StrAlt := [seq2 (matchDigit 0 5) (matchDigit 0 9), matchDigit 0 9]

/-- CPython `_strptime` regex for `%S`: `6[0-1]|[0-5]\d|\d`. -/
def altsSec : List StrAlt :=
  [seq2 (matchDigit 6 6) (matchDigit 0 1), seq2 (matchDigit 0 5) (matchDigit 0 9),
    matchDigit 0 9]

/-- Regex alternation with backtracking: try each alternative in order;
on a match run the continuation `k` (the rest of the pattern), and fall
through to the next alternative if it fails. -/
def runAlts (alts : List StrAlt) (k : List Char → Option (List Nat × List Char))
    (s : List Char) : Option (List Nat × List Char) :=
  match alts with
  | [] => none
  | a :: rest =>
    match a s with
    | none => runAlts rest k s
    | some (v, r) =>
      match k r with
      | some (vs, r2) => some (v :: vs, r2)
      | none => runAlts rest k s

/-- Match a sequence of fields (`re.match` semantics: anchored at the
start, the end of the input is NOT required by the pattern itself). -/
def runPat : List (List StrAlt) → List Char → Option (List Nat × List Char)
  | [], s => some ([], s)
  | alts :: fields, s => runAlts alts (runPat fields) s

/-- The compiled field sequence of `"%Y%m%d_%H%M%S"`. -/
def fmtFields : List (List StrAlt) :=
  [altsY, altsMonth, altsDay, [matchLit '_'], altsHour, altsMin, altsSec]

/-- `datetime.strptime(s, "%Y%m%d_%H%M%S")`, returning `none` where
CPython raises `ValueError`: no regex match, unconverted trailing data,
or constructor range failure (year 0, day past month end, leap second
from the `6[0-1]` branch of `%S`). -/
def strptimeYmdHMS (s : List Char) : Option DateTime :=
  match runPat fmtFields s with
  | some ([y, m, d, _, h, mi, sec], []) =>
    if 1 ≤ y ∧ d ≤ daysInMonth y m ∧ sec ≤ 59 then
      some ⟨y, m, d, h, mi, sec⟩
    else none
  | _ => none

/-- Index of the last `'.'` in the list, if any. -/
def lastDotIdx : List Char → Option Nat
  | [] => none
  | c :: r =>
    match lastDotIdx r with
    | some i => some (i + 1)
    | none => if c = '.' then some 0 else none

/-- `pathlib.PurePath.stem` restricted to a bare file name (no path
separator, which is how `rotate_backups` calls it): drop the suffix
`name[i:]` when the last dot index `i` satisfies `0 < i < len - 1`. -/
def stemCore (l : List Char) : List Char :=
  match lastDotIdx l with
  | none => l
  | some i => if 0 < i ∧ i + 1 < l.length then l.take i else l

/-- Python `str.split("_")` (single-character separator, no maxsplit,
empty segments preserved; the result is never the empty list). -/
def splitU : List Char → List (List Char)
  | [] => [[]]
  | c :: r =>
    if c = '_' then [] :: splitU r
    else
      match splitU r with
      | [] => [[c]]
      | h :: t => (c :: h) :: t

/-- Python `"_".join(parts)`. -/
def joinU : List (List Char) → List Char
  | [] => []
  | [p] => p
  | p :: ps => p ++ '_' :: joinU ps

/-- Python `parts[-2:]`. -/
def lastTwo {α : Type} (l : List α) : List α := l.drop (l.length - 2)

/-- `parse_backup_timestamp` from `backup.py`, on the character list of
the file name. -/
def parseCore (filename : List Char) : Option DateTime :=
  let parts := splitU (stemCore filename)
  if parts.length < 2 then none
  else strptimeYmdHMS (joinU (lastTwo parts))

/-- `parse_backup_timestamp` from `backup.py`. -/
def parse_backup_timestamp (filename : String) : Option DateTime :=
  parseCore filename.toList

/-! ### Retention engine (`rotate_backups`) -/

/-- Boolean list-prefix test. -/
def lpre : List Char → List Char → Bool
  | [], _ => true
  | _ :: _, [] => false
  | a :: as, b :: bs => a == b && lpre as bs

/-- `backup_dir.glob(f"{db}_*.zip")` membership for a file name in the
directory: the name starts with `db ++ "_"` and ends with `".zip"`
(`*` matches any, possibly empty, character sequence; a database name
is assumed free of glob metacharacters.  The two literal parts cannot
overlap since `'_'` does not occur in `".zip"`). -/
def globMatch (db name : String) : Bool :=
  lpre (db.toList ++ ['_']) name.toList && lpre ['p', 'i', 'z', '.'] name.toList.reverse

/-- Code-point lexicographic order on character lists: the order Python
string (and same-directory `pathlib` path) comparison uses. -/
def charListLe : List Char → List Char → Bool
  | [], _ => true
  | _ :: _, [] => false
  | a :: as, b :: bs =>
    if a.toNat < b.toNat then true
    else if b.toNat < a.toNat then false
    else charListLe as bs

/-- Python `<=` on file names. -/
def pathLe (a b : String) : Bool := charListLe a.toList b.toList

/-- `sorted([p for p in backup_dir.glob(f"{db}_*.zip")])`: the matching
names in ascending lexicographic order (for files of one directory,
`pathlib` path order is code-point order on the names, i.e. `pathLe`;
`sorted` on distinct keys is order-of-input independent). -/
def candidates (db : String) (listing : List String) : List String :=
  List.insertionSort (fun a b => pathLe a b = true) (listing.filter (globMatch db))

/-- The `entries` list: each candidate paired with its parsed
timestamp, unparsable names skipped. -/
def entriesOf (cands : List String) : List (String × DateTime) :=
  cands.filterMap fun f => (parse_backup_timestamp f).map fun ts => (f, ts)

/-- `now - timedelta(days=7)`. -/
def dailyCutoff (now : Int) : Int := now - 7 * 86400

/-- `now - timedelta(weeks=4)` (= 28 days). -/
def weeklyCutoff (now : Int) : Int := now - 28 * 86400

/-- `now - timedelta(days=90)`. -/
def monthlyCutoff (now : Int) : Int := now - 90 * 86400

/-- `ts >= daily_cutoff`. -/
def inDaily (now : Int) (ts : DateTime) : Bool := decide (dailyCutoff now ≤ tsSec ts)

/-- `weekly_cutoff <= ts < daily_cutoff`. -/
def inWeekly (now : Int) (ts : DateTime) : Bool :=
  decide (weeklyCutoff now ≤ tsSec ts ∧ tsSec ts < dailyCutoff now)

/-- `monthly_cutoff <= ts < weekly_cutoff`. -/
def inMonthly (now : Int) (ts : DateTime) : Bool :=
  decide (monthlyCutoff now ≤ tsSec ts ∧ tsSec ts < weeklyCutoff now)

/-- Weekly bucket key `(ts.isocalendar().year, ts.isocalendar().week)`. -/
def weeklyKey (ts : DateTime) : Int × Int := isocalendar ts

/-- Monthly bucket key `(ts.year, ts.month)`. -/
def monthlyKey (ts : DateTime) : Int × Int := ((ts.year : Int), (ts.month : Int))

/-- Python `dict` lookup on an insertion-ordered association list. -/
def dlookup {K A : Type} [DecidableEq K] (k : K) : List (K × A) → Option A
  | [] => none
  | (k', a) :: r => if k' = k then some a else dlookup k r

/-- Python `dict` assignment `d[k] = a`: overwrite in place, or append. -/
def dupdate {K A : Type} [DecidableEq K] (k : K) (a : A) : List (K × A) → List (K × A)
  | [] => [(k, a)]
  | (k', a') :: r => if k' = k then (k, a) :: r else (k', a') :: dupdate k a r

/-- One iteration of a bucket loop of `rotate_backups`:

    if in_range(ts):
        key = keyf(ts)
        if key not in d or ts > d[key][1]:
            d[key] = (f, ts)

(`>` on datetimes is modelled on the `tsSec` linearisation). -/
def bstep {K : Type} [DecidableEq K] (keyf : DateTime → K) (rng : DateTime → Bool)
    (d : List (K × String × DateTime)) (e : String × DateTime) :
    List (K × String × DateTime) :=
  if rng e.2 then
    match dlookup (keyf e.2) d with
    | none => dupdate (keyf e.2) e d
    | some v => if tsSec v.2 < tsSec e.2 then dupdate (keyf e.2) e d else d
  else d

/-- A whole bucket loop: fold `bstep` over the entries from `{}`. -/
def bdict {K : Type} [DecidableEq K] (keyf : DateTime → K) (rng : DateTime → Bool)
    (es : List (String × DateTime)) : List (K × String × DateTime) :=
  es.foldl (bstep keyf rng) []

/-- The `keep` set of `rotate_backups` (as the list of its members,
with possible repetitions): every daily-range entry, plus the weekly
and monthly bucket representatives. -/
def keepOf (now : Int) (es : List (String × DateTime)) : List String :=
  (es.filter fun e => inDaily now e.2).map Prod.fst
    ++ (bdict weeklyKey (inWeekly now) es).map (fun kv => kv.2.1)
    ++ (bdict monthlyKey (inMonthly now) es).map (fun kv => kv.2.1)

/-- Files `rotate_backups` keeps, given the directory listing and the
evaluation instant `now` (in `tsSec` seconds). -/
def rotate_keep (db : String) (listing : List String) (now : Int) : List String :=
  keepOf now (entriesOf (candidates db listing))

/-- Files `rotate_backups` deletes: the final loop unlinks exactly the
entries whose file is not in `keep`.  (The early returns of the source
on an empty candidate or entry list delete nothing, which coincides
with this list being empty then.) -/
def rotate_deleted (db : String) (listing : List String) (now : Int) : List String :=
  ((entriesOf (candidates db listing)).map Prod.fst).filter fun f =>
    decide (f ∉ rotate_keep db listing now)

/-- Candidates whose name does not parse (`Skipping unparsable backup
name` log branch). -/
def rotate_skipped (db : String) (listing : List String) : List String :=
  (candidates db listing).filter fun f => (parse_backup_timestamp f).isNone

/-- The deletion loop of `rotate_backups` with an explicit unlink
oracle standing for the filesystem: each file is attempted in order;
`f.unlink()` raising (`Except.error`) is caught by the
`try/except` and recorded as a warning (`some reason`), after which the
loop continues with the remaining files. -/
def deletePhase (unlink : String → Except String Unit) :
    List String → List (String × Option String)
  | [] => []
  | f :: r =>
    match unlink f with
    | .ok _ => (f, none) :: deletePhase unlink r
    | .error e => (f, some e) :: deletePhase unlink r

/-- Directory contents after a run of `rotate_backups` in which every
unlink succeeded. -/
def survivors (db : String) (listing : List String) (now : Int) : List String :=
  listing.filter fun f => decide (f ∉ rotate_deleted db listing now)

/-- Invariant of a bucket dictionary after processing the entry list
`seen` (in that order): keys are distinct; every stored value is a
seen, in-range entry stored under its own key, with the maximal
timestamp of its bucket; every seen in-range entry has an occupied
bucket; and on a timestamp tie the stored value's path is minimal
(which relies on `seen` being processed in ascending path order). -/
structure BInv {K : Type} [DecidableEq K] (keyf : DateTime → K) (rng : DateTime → Bool)
    (seen : List (String × DateTime)) (d : List (K × String × DateTime)) : Prop where
  knd : (d.map Prod.fst).Nodup
  found : ∀ k v, dlookup k d = some v → v ∈ seen ∧ rng v.2 = true ∧ keyf v.2 = k
  maxts : ∀ k v, dlookup k d = some v → ∀ e ∈ seen, rng e.2 = true → keyf e.2 = k →
    tsSec e.2 ≤ tsSec v.2
  occ : ∀ e ∈ seen, rng e.2 = true → ∃ v, dlookup (keyf e.2) d = some v
  minpath : ∀ k v, dlookup k d = some v → ∀ e ∈ seen, rng e.2 = true → keyf e.2 = k →
    tsSec e.2 = tsSec v.2 → pathLe v.1 e.1 = true

/-! ### Path-order lemmas -/

theorem char_eq_of_toNat_eq {a b : Char} (h : a.toNat = b.toNat) : a = b :=
  Char.ext (UInt32.eq_of_toBitVec_eq (BitVec.eq_of_toNat_eq h))

theorem charListLe_refl : ∀ l : List Char, charListLe l l = true := by
  intro l
  induction l with
  | nil => rfl
  | cons a r ih => simp [charListLe, ih]

theorem pathLe_refl (s : String) : pathLe s s = true := charListLe_refl _

theorem charListLe_total : ∀ a b : List Char,
    charListLe a b = true ∨ charListLe b a = true := by
  intro a
  induction a with
  | nil => intro b; exact Or.inl rfl
  | cons x xs ih =>
    intro b
    cases b with
    | nil => exact Or.inr rfl
    | cons y ys =>
      rcases Nat.lt_trichotomy x.toNat y.toNat with h | h | h
      · exact Or.inl (by simp [charListLe, h])
      · rcases ih ys with hl | hl
        · exact Or.inl (by simp [charListLe, h, hl])
        · exact Or.inr (by simp [charListLe, h.symm, hl])
      · exact Or.inr (by simp [charListLe, h])

theorem charListLe_trans : ∀ a b c : List Char,
    charListLe a b = true → charListLe b c = true → charListLe a c = true := by
  intro a
  induction a with
  | nil => intro b c _ _; rfl
  | cons x xs ih =>
    intro b c hab hbc
    cases b with
    | nil => exact absurd hab (by simp [charListLe])
    | cons y ys =>
      cases c with
      | nil => exact absurd hbc (by simp [charListLe])
      | cons z zs =>
        simp only [charListLe] at hab hbc ⊢
        split_ifs at hab hbc ⊢ <;> first
          | rfl
          | omega
          | (exact ih ys zs hab hbc)

theorem charListLe_antisymm : ∀ a b : List Char,
    charListLe a b = true → charListLe b a = true → a = b := by
  intro a
  induction a with
  | nil =>
    intro b _ hba
    cases b with
    | nil => rfl
    | cons y ys => exact absurd hba (by simp [charListLe])
  | cons x xs ih =>
    intro b hab hba
    cases b with
    | nil => exact absurd hab (by simp [charListLe])
    | cons y ys =>
      by_cases h1 : x.toNat < y.toNat
      · have hy : ¬y.toNat < x.toNat := by omega
        simp only [charListLe] at hba
        rw [if_neg hy, if_pos h1] at hba
        exact Bool.noConfusion hba
      · by_cases h2 : y.toNat < x.toNat
        · simp only [charListLe] at hab
          rw [if_neg h1, if_pos h2] at hab
          exact Bool.noConfusion hab
        · have hx : x = y := char_eq_of_toNat_eq (by omega)
          simp only [charListLe, if_neg h1, if_neg h2] at hab
          simp only [charListLe, if_neg h2, if_neg h1] at hba
          rw [hx, ih ys hab hba]

theorem pathLe_isTotal : IsTotal String (fun a b => pathLe a b = true) :=
  ⟨fun a b => charListLe_total a.toList b.toList⟩

theorem pathLe_isTrans : IsTrans String (fun a b => pathLe a b = true) :=
  ⟨fun a b c => charListLe_trans a.toList b.toList c.toList⟩

theorem string_toList_inj {a b : String} (h : a.toList = b.toList) : a = b := by
  cases a with
  | mk da =>
    cases b with
    | mk db =>
      have h2 : da = db := h
      rw [h2]

theorem pathLe_isAntisymm : IsAntisymm String (fun a b => pathLe a b = true) :=
  ⟨fun a b h1 h2 => string_toList_inj (charListLe_antisymm a.toList b.toList h1 h2)⟩

/-! ### Association-list dictionary lemmas -/

theorem dlookup_dupdate_self {K A : Type} [DecidableEq K] (k : K) (a : A) :
    ∀ d : List (K × A), dlookup k (dupdate k a d) = some a := by
  intro d
  induction d with
  | nil => simp [dupdate, dlookup]
  | cons p r ih =>
    obtain ⟨k', a'⟩ := p
    by_cases h : k' = k
    · simp [dupdate, dlookup, h]
    · simpa [dupdate, dlookup, h] using ih

theorem dlookup_dupdate_ne {K A : Type} [DecidableEq K] {k k' : K} (a : A)
    (hne : k' ≠ k) : ∀ d : List (K × A), dlookup k' (dupdate k a d) = dlookup k' d := by
  intro d
  induction d with
  | nil => simp [dupdate, dlookup, Ne.symm hne]
  | cons p r ih =>
    obtain ⟨k2, a2⟩ := p
    by_cases h : k2 = k
    · subst h
      simp [dupdate, dlookup, Ne.symm hne, hne]
    · by_cases h2 : k2 = k'
      · simp [dupdate, dlookup, h, h2, hne]
      · simpa [dupdate, dlookup, h, h2] using ih

theorem mem_of_dlookup {K A : Type} [DecidableEq K] {k : K} {a : A} :
    ∀ {d : List (K × A)}, dlookup k d = some a → (k, a) ∈ d := by
  intro d
  induction d with
  | nil => simp [dlookup]
  | cons p r ih =>
    obtain ⟨k', a'⟩ := p
    by_cases h : k' = k
    · subst h
      intro hl
      rw [dlookup, if_pos rfl] at hl
      obtain rfl : a' = a := Option.some.inj hl
      exact List.mem_cons_self _ _
    · intro hl
      rw [dlookup, if_neg h] at hl
      exact List.mem_cons_of_mem _ (ih hl)

theorem dlookup_of_mem {K A : Type} [DecidableEq K] {k : K} {a : A} :
    ∀ {d : List (K × A)}, (d.map Prod.fst).Nodup → (k, a) ∈ d → dlookup k d = some a := by
  intro d
  induction d with
  | nil => simp
  | cons p r ih =>
    obtain ⟨k', a'⟩ := p
    intro hnd hm
    simp only [List.map_cons, List.nodup_cons] at hnd
    rcases List.mem_cons.1 hm with h | h
    · obtain ⟨rfl, rfl⟩ := Prod.mk.inj h.symm
      simp [dlookup]
    · have hk : k' ≠ k := by
        rintro rfl
        exact hnd.1 (List.mem_map.2 ⟨(k', a), h, rfl⟩)
      rw [dlookup, if_neg hk]
      exact ih hnd.2 h

theorem dupdate_keys {K A : Type} [DecidableEq K] (k : K) (a : A) :
    ∀ d : List (K × A),
      (dupdate k a d).map Prod.fst =
        if k ∈ d.map Prod.fst then d.map Prod.fst else d.map Prod.fst ++ [k] := by
  intro d
  induction d with
  | nil => simp [dupdate]
  | cons p r ih =>
    obtain ⟨k', a'⟩ := p
    by_cases h : k' = k
    · simp [dupdate, h]
    · have h' : ¬k = k' := fun he => h he.symm
      by_cases hm : k ∈ r.map Prod.fst
      · simp [dupdate, h, hm, ih, h']
      · simp [dupdate, h, hm, ih, h']

theorem dupdate_keys_nodup {K A : Type} [DecidableEq K] (k : K) (a : A)
    {d : List (K × A)} (hnd : (d.map Prod.fst).Nodup) :
    ((dupdate k a d).map Prod.fst).Nodup := by
  rw [dupdate_keys]
  by_cases hm : k ∈ d.map Prod.fst
  · simpa [hm] using hnd
  · rw [if_neg hm]
    simpa [List.nodup_append, hm] using hnd

/-! ### Bucket-loop invariant -/

theorem bstep_inv {K : Type} [DecidableEq K] {keyf : DateTime → K} {rng : DateTime → Bool}
    {seen : List (String × DateTime)} {d : List (K × String × DateTime)}
    (e : String × DateTime) (h : BInv keyf rng seen d)
    (hle : ∀ a ∈ seen, pathLe a.1 e.1 = true) :
    BInv keyf rng (seen ++ [e]) (bstep keyf rng d e) := by
  by_cases hr : rng e.2 = true
  · rw [bstep, if_pos hr]
    cases hl : dlookup (keyf e.2) d with
    | none =>
      refine ⟨dupdate_keys_nodup _ _ h.knd, ?_, ?_, ?_, ?_⟩
      · intro k v hv
        by_cases hk : k = keyf e.2
        · subst hk
          rw [dlookup_dupdate_self] at hv
          obtain rfl := Option.some.inj hv
          exact ⟨List.mem_append_right _ (List.mem_singleton_self _), hr, rfl⟩
        · rw [dlookup_dupdate_ne _ hk] at hv
          obtain ⟨hm, h1, h2⟩ := h.found k v hv
          exact ⟨List.mem_append_left _ hm, h1, h2⟩
      · intro k v hv e' he' hr' hk'
        rcases List.mem_append.1 he' with he' | he'
        · by_cases hk : k = keyf e.2
          · subst hk
            obtain ⟨v0, hv0⟩ := h.occ e' he' hr'
            rw [hk'] at hv0
            rw [hv0] at hl
            exact absurd hl (by simp)
          · rw [dlookup_dupdate_ne _ hk] at hv
            exact h.maxts k v hv e' he' hr' hk'
        · obtain rfl := List.mem_singleton.1 he'
          rw [hk'] at hv
          rw [dlookup_dupdate_self] at hv
          obtain rfl := Option.some.inj hv
          exact le_refl _
      · intro e' he' hr'
        rcases List.mem_append.1 he' with he' | he'
        · obtain ⟨v0, hv0⟩ := h.occ e' he' hr'
          have hk : keyf e'.2 ≠ keyf e.2 := by
            intro hkk
            rw [hkk, hl] at hv0
            exact absurd hv0 (by simp)
          rw [dlookup_dupdate_ne _ hk]
          exact ⟨v0, hv0⟩
        · obtain rfl := List.mem_singleton.1 he'
          exact ⟨_, dlookup_dupdate_self _ _ _⟩
      · intro k v hv e' he' hr' hk' hts
        rcases List.mem_append.1 he' with he' | he'
        · by_cases hk : k = keyf e.2
          · subst hk
            obtain ⟨v0, hv0⟩ := h.occ e' he' hr'
            rw [hk'] at hv0
            rw [hv0] at hl
            exact absurd hl (by simp)
          · rw [dlookup_dupdate_ne _ hk] at hv
            exact h.minpath k v hv e' he' hr' hk' hts
        · obtain rfl := List.mem_singleton.1 he'
          rw [hk'] at hv
          rw [dlookup_dupdate_self] at hv
          obtain rfl := Option.some.inj hv
          exact pathLe_refl _
    | some v0 =>
      show BInv keyf rng (seen ++ [e])
        (if tsSec v0.2 < tsSec e.2 then dupdate (keyf e.2) e d else d)
      by_cases hts0 : tsSec v0.2 < tsSec e.2
      · rw [if_pos hts0]
        refine ⟨dupdate_keys_nodup _ _ h.knd, ?_, ?_, ?_, ?_⟩
        · intro k v hv
          by_cases hk : k = keyf e.2
          · subst hk
            rw [dlookup_dupdate_self] at hv
            obtain rfl := Option.some.inj hv
            exact ⟨List.mem_append_right _ (List.mem_singleton_self _), hr, rfl⟩
          · rw [dlookup_dupdate_ne _ hk] at hv
            obtain ⟨hm, h1, h2⟩ := h.found k v hv
            exact ⟨List.mem_append_left _ hm, h1, h2⟩
        · intro k v hv e' he' hr' hk'
          rcases List.mem_append.1 he' with he' | he'
          · by_cases hk : k = keyf e.2
            · subst hk
              rw [dlookup_dupdate_self] at hv
              obtain rfl := Option.some.inj hv
              have := h.maxts _ v0 hl e' he' hr' hk'
              omega
            · rw [dlookup_dupdate_ne _ hk] at hv
              exact h.maxts k v hv e' he' hr' hk'
          · obtain rfl := List.mem_singleton.1 he'
            rw [hk'] at hv
            rw [dlookup_dupdate_self] at hv
            obtain rfl := Option.some.inj hv
            exact le_refl _
        · intro e' he' hr'
          rcases List.mem_append.1 he' with he' | he'
          · obtain ⟨v1, hv1⟩ := h.occ e' he' hr'
            by_cases hk : keyf e'.2 = keyf e.2
            · rw [hk]
              exact ⟨_, dlookup_dupdate_self _ _ _⟩
            · rw [dlookup_dupdate_ne _ hk]
              exact ⟨v1, hv1⟩
          · obtain rfl := List.mem_singleton.1 he'
            exact ⟨_, dlookup_dupdate_self _ _ _⟩
        · intro k v hv e' he' hr' hk' hts
          rcases List.mem_append.1 he' with he' | he'
          · by_cases hk : k = keyf e.2
            · subst hk
              rw [dlookup_dupdate_self] at hv
              obtain rfl := Option.some.inj hv
              have := h.maxts _ v0 hl e' he' hr' hk'
              omega
            · rw [dlookup_dupdate_ne _ hk] at hv
              exact h.minpath k v hv e' he' hr' hk' hts
          · obtain rfl := List.mem_singleton.1 he'
            rw [hk'] at hv
            rw [dlookup_dupdate_self] at hv
            obtain rfl := Option.some.inj hv
            exact pathLe_refl _
      · rw [if_neg hts0]
        refine ⟨h.knd, ?_, ?_, ?_, ?_⟩
        · intro k v hv
          obtain ⟨hm, h1, h2⟩ := h.found k v hv
          exact ⟨List.mem_append_left _ hm, h1, h2⟩
        · intro k v hv e' he' hr' hk'
          rcases List.mem_append.1 he' with he' | he'
          · exact h.maxts k v hv e' he' hr' hk'
          · obtain rfl := List.mem_singleton.1 he'
            have hv0k : dlookup k d = some v0 := by rw [← hk']; exact hl
            rw [hv0k] at hv
            obtain rfl := Option.some.inj hv
            omega
        · intro e' he' hr'
          rcases List.mem_append.1 he' with he' | he'
          · exact h.occ e' he' hr'
          · obtain rfl := List.mem_singleton.1 he'
            exact ⟨v0, hl⟩
        · intro k v hv e' he' hr' hk' hts
          rcases List.mem_append.1 he' with he' | he'
          · exact h.minpath k v hv e' he' hr' hk' hts
          · obtain rfl := List.mem_singleton.1 he'
            have hv0k : dlookup k d = some v0 := by rw [← hk']; exact hl
            rw [hv0k] at hv
            obtain rfl := Option.some.inj hv
            exact hle _ (h.found _ _ hv0k).1
  · rw [bstep, if_neg hr]
    refine ⟨h.knd, ?_, ?_, ?_, ?_⟩
    · intro k v hv
      obtain ⟨hm, h1, h2⟩ := h.found k v hv
      exact ⟨List.mem_append_left _ hm, h1, h2⟩
    · intro k v hv e' he' hr' hk'
      rcases List.mem_append.1 he' with he' | he'
      · exact h.maxts k v hv e' he' hr' hk'
      · obtain rfl := List.mem_singleton.1 he'
        exact absurd hr' hr
    · intro e' he' hr'
      rcases List.mem_append.1 he' with he' | he'
      · exact h.occ e' he' hr'
      · obtain rfl := List.mem_singleton.1 he'
        exact absurd hr' hr
    · intro k v hv e' he' hr' hk' hts
      rcases List.mem_append.1 he' with he' | he'
      · exact h.minpath k v hv e' he' hr' hk' hts
      · obtain rfl := List.mem_singleton.1 he'
        exact absurd hr' hr

theorem bdict_inv_aux {K : Type} [DecidableEq K] {keyf : DateTime → K}
    {rng : DateTime → Bool} :
    ∀ (l : List (String × DateTime)) (seen : List (String × DateTime))
      (d : List (K × String × DateTime)),
      BInv keyf rng seen d →
      (∀ a ∈ seen, ∀ b ∈ l, pathLe a.1 b.1 = true) →
      List.Pairwise (fun a b => pathLe a.1 b.1 = true) l →
      BInv keyf rng (seen ++ l) (l.foldl (bstep keyf rng) d) := by
  intro l
  induction l with
  | nil => intro seen d h _ _; simpa using h
  | cons e l ih =>
    intro seen d h hsl hp
    rw [List.pairwise_cons] at hp
    have h1 : BInv keyf rng (seen ++ [e]) (bstep keyf rng d e) :=
      bstep_inv e h fun a ha => hsl a ha e (List.mem_cons_self _ _)
    have h2 := ih (seen ++ [e]) (bstep keyf rng d e) h1 ?_ hp.2
    · simpa using h2
    · intro a ha b hb
      rcases List.mem_append.1 ha with ha | ha
      · exact hsl a ha b (List.mem_cons_of_mem _ hb)
      · obtain rfl := List.mem_singleton.1 ha
        exact hp.1 b hb

theorem bdict_inv {K : Type} [DecidableEq K] (keyf : DateTime → K) (rng : DateTime → Bool)
    (l : List (String × DateTime)) (hp : List.Pairwise (fun a b => pathLe a.1 b.1 = true) l) :
    BInv keyf rng l (bdict keyf rng l) := by
  have h0 : BInv keyf rng [] ([] : List (K × String × DateTime)) := by
    refine ⟨by simp, ?_, ?_, ?_, ?_⟩ <;> simp [dlookup]
  simpa using bdict_inv_aux l [] [] h0 (by simp) hp

theorem bstep_keys_nodup {K : Type} [DecidableEq K] {keyf : DateTime → K}
    {rng : DateTime → Bool} {d : List (K × String × DateTime)} (e : String × DateTime)
    (h : (d.map Prod.fst).Nodup) : ((bstep keyf rng d e).map Prod.fst).Nodup := by
  unfold bstep
  split
  · split
    · exact dupdate_keys_nodup _ _ h
    · split
      · exact dupdate_keys_nodup _ _ h
      · exact h
  · exact h

theorem bdict_keys_nodup {K : Type} [DecidableEq K] (keyf : DateTime → K)
    (rng : DateTime → Bool) (l : List (String × DateTime)) :
    ((bdict keyf rng l).map Prod.fst).Nodup := by
  suffices h : ∀ (l' : List (String × DateTime)) (d : List (K × String × DateTime)),
      (d.map Prod.fst).Nodup → ((l'.foldl (bstep keyf rng) d).map Prod.fst).Nodup by
    exact h l [] (by simp)
  intro l'
  induction l' with
  | nil => intro d h; exact h
  | cons e r ih => intro d h; exact ih _ (bstep_keys_nodup e h)

/-! ### Membership characterisations -/

theorem mem_candidates {db f : String} {listing : List String} :
    f ∈ candidates db listing ↔ f ∈ listing ∧ globMatch db f = true := by
  unfold candidates
  rw [(List.perm_insertionSort _ _).mem_iff, List.mem_filter]

theorem mem_entriesOf {cands : List String} {f : String} {ts : DateTime} :
    (f, ts) ∈ entriesOf cands ↔ f ∈ cands ∧ parse_backup_timestamp f = some ts := by
  unfold entriesOf
  rw [List.mem_filterMap]
  constructor
  · rintro ⟨a, ha, hm⟩
    obtain ⟨t1, ht1, he⟩ := Option.map_eq_some'.1 hm
    obtain ⟨rfl, rfl⟩ := Prod.mk.inj he
    exact ⟨ha, ht1⟩
  · rintro ⟨hf, hp⟩
    exact ⟨f, hf, by rw [hp]; rfl⟩

theorem entries_functional {cands : List String} {f : String} {ts ts' : DateTime}
    (h1 : (f, ts) ∈ entriesOf cands) (h2 : (f, ts') ∈ entriesOf cands) : ts = ts' :=
  Option.some.inj ((mem_entriesOf.1 h1).2.symm.trans (mem_entriesOf.1 h2).2)

theorem entries_pairwise (db : String) (listing : List String) :
    List.Pairwise (fun a b : String × DateTime => pathLe a.1 b.1 = true)
      (entriesOf (candidates db listing)) := by
  unfold entriesOf
  rw [List.pairwise_filterMap]
  haveI := pathLe_isTotal
  haveI := pathLe_isTrans
  have hs : List.Sorted (fun a b => pathLe a b = true) (candidates db listing) :=
    List.sorted_insertionSort _ _
  refine hs.imp ?_
  intro a a' hle b hb b' hb'
  obtain ⟨t1, _, rfl⟩ := Option.map_eq_some'.1 hb
  obtain ⟨t2, _, rfl⟩ := Option.map_eq_some'.1 hb'
  exact hle

theorem mem_keepOf {now : Int} {es : List (String × DateTime)} {f : String} :
    f ∈ keepOf now es ↔
      (∃ e ∈ es, e.1 = f ∧ inDaily now e.2 = true) ∨
      (∃ k v, dlookup k (bdict weeklyKey (inWeekly now) es) = some v ∧ v.1 = f) ∨
      (∃ k v, dlookup k (bdict monthlyKey (inMonthly now) es) = some v ∧ v.1 = f) := by
  unfold keepOf
  simp only [List.mem_append, List.mem_map, List.mem_filter]
  constructor
  · rintro ((⟨e, ⟨he, hd⟩, rfl⟩ | ⟨kv, hkv, rfl⟩) | ⟨kv, hkv, rfl⟩)
    · exact Or.inl ⟨e, he, rfl, hd⟩
    · exact Or.inr (Or.inl ⟨kv.1, kv.2, dlookup_of_mem (bdict_keys_nodup _ _ _) hkv, rfl⟩)
    · exact Or.inr (Or.inr ⟨kv.1, kv.2, dlookup_of_mem (bdict_keys_nodup _ _ _) hkv, rfl⟩)
  · rintro (⟨e, he, rfl, hd⟩ | ⟨k, v, hv, rfl⟩ | ⟨k, v, hv, rfl⟩)
    · exact Or.inl (Or.inl ⟨e, ⟨he, hd⟩, rfl⟩)
    · exact Or.inl (Or.inr ⟨(k, v), mem_of_dlookup hv, rfl⟩)
    · exact Or.inr ⟨(k, v), mem_of_dlookup hv, rfl⟩

theorem mem_keep_entry {db : String} {listing : List String} {now : Int} {f : String}
    (h : f ∈ rotate_keep db listing now) :
    ∃ ts, (f, ts) ∈ entriesOf (candidates db listing) := by
  rcases mem_keepOf.1 h with ⟨e, he, rfl, _⟩ | ⟨k, v, hv, rfl⟩ | ⟨k, v, hv, rfl⟩
  · exact ⟨e.2, he⟩
  · exact ⟨v.2, ((bdict_inv _ _ _ (entries_pairwise db listing)).found k v hv).1⟩
  · exact ⟨v.2, ((bdict_inv _ _ _ (entries_pairwise db listing)).found k v hv).1⟩

theorem mem_rotate_deleted {db : String} {listing : List String} {now : Int} {f : String} :
    f ∈ rotate_deleted db listing now ↔
      (∃ ts, (f, ts) ∈ entriesOf (candidates db listing)) ∧
        f ∉ rotate_keep db listing now := by
  unfold rotate_deleted
  rw [List.mem_filter]
  simp only [List.mem_map, decide_eq_true_eq]
  constructor
  · rintro ⟨⟨e, he, rfl⟩, hk⟩
    exact ⟨⟨e.2, he⟩, hk⟩
  · rintro ⟨⟨ts, hts⟩, hk⟩
    exact ⟨⟨(f, ts), hts, rfl⟩, hk⟩

theorem kept_entry_in_range {db : String} {listing : List String} {now : Int}
    {e : String × DateTime} (he : e ∈ entriesOf (candidates db listing))
    (hk : e.1 ∈ rotate_keep db listing now) :
    inDaily now e.2 = true ∨ inWeekly now e.2 = true ∨ inMonthly now e.2 = true := by
  rcases mem_keepOf.1 hk with ⟨e', he', heq, hd⟩ | ⟨k, v, hv, heq⟩ | ⟨k, v, hv, heq⟩
  · have he2 : (e.1, e'.2) ∈ entriesOf (candidates db listing) := by
      rw [← heq]; exact he'
    have : e'.2 = e.2 := entries_functional he2 he
    exact Or.inl (this ▸ hd)
  · obtain ⟨hm, hr, _⟩ := (bdict_inv _ _ _ (entries_pairwise db listing)).found k v hv
    have hv2 : (e.1, v.2) ∈ entriesOf (candidates db listing) := by
      rw [← heq]; exact hm
    have : v.2 = e.2 := entries_functional hv2 he
    exact Or.inr (Or.inl (this ▸ hr))
  · obtain ⟨hm, hr, _⟩ := (bdict_inv _ _ _ (entries_pairwise db listing)).found k v hv
    have hv2 : (e.1, v.2) ∈ entriesOf (candidates db listing) := by
      rw [← heq]; exact hm
    have : v.2 = e.2 := entries_functional hv2 he
    exact Or.inr (Or.inr (this ▸ hr))

theorem not_daily_and_weekly {now : Int} {ts : DateTime} (h1 : inDaily now ts = true)
    (h2 : inWeekly now ts = true) : False := by
  simp only [inDaily, inWeekly, dailyCutoff, weeklyCutoff, decide_eq_true_eq] at h1 h2
  omega

theorem not_daily_and_monthly {now : Int} {ts : DateTime} (h1 : inDaily now ts = true)
    (h2 : inMonthly now ts = true) : False := by
  simp only [inDaily, inMonthly, dailyCutoff, weeklyCutoff, monthlyCutoff,
    decide_eq_true_eq] at h1 h2
  omega

theorem not_weekly_and_monthly {now : Int} {ts : DateTime} (h1 : inWeekly now ts = true)
    (h2 : inMonthly now ts = true) : False := by
  simp only [inWeekly, inMonthly, dailyCutoff, weeklyCutoff, monthlyCutoff,
    decide_eq_true_eq] at h1 h2
  omega

/-- A kept entry in the weekly range is exactly the representative its
bucket's dictionary stores. -/
theorem kept_weekly_is_rep {db : String} {listing : List String} {now : Int}
    {e : String × DateTime} (he : e ∈ entriesOf (candidates db listing))
    (hw : inWeekly now e.2 = true) (hk : e.1 ∈ rotate_keep db listing now) :
    dlookup (weeklyKey e.2)
      (bdict weeklyKey (inWeekly now) (entriesOf (candidates db listing))) = some e := by
  rcases mem_keepOf.1 hk with ⟨e', he', heq, hd⟩ | ⟨k, v, hv, heq⟩ | ⟨k, v, hv, heq⟩
  · have he2 : (e.1, e'.2) ∈ entriesOf (candidates db listing) := by
      rw [← heq]; exact he'
    have hts : e'.2 = e.2 := entries_functional he2 he
    exact absurd hw (fun hw => not_daily_and_weekly (hts ▸ hd) hw)
  · obtain ⟨hm, hr, hkey⟩ := (bdict_inv _ _ _ (entries_pairwise db listing)).found k v hv
    have hv2 : (e.1, v.2) ∈ entriesOf (candidates db listing) := by
      rw [← heq]; exact hm
    have hts : v.2 = e.2 := entries_functional hv2 he
    have hve : v = e := Prod.ext heq hts
    rw [← hkey, hts, hve] at hv
    exact hv
  · obtain ⟨hm, hr, hkey⟩ := (bdict_inv _ _ _ (entries_pairwise db listing)).found k v hv
    have hv2 : (e.1, v.2) ∈ entriesOf (candidates db listing) := by
      rw [← heq]; exact hm
    have hts : v.2 = e.2 := entries_functional hv2 he
    exact absurd hw (fun hw => not_weekly_and_monthly hw (hts ▸ hr))

/-- A kept entry in the monthly range is exactly the representative its
bucket's dictionary stores. -/
theorem kept_monthly_is_rep {db : String} {listing : List String} {now : Int}
    {e : String × DateTime} (he : e ∈ entriesOf (candidates db listing))
    (hw : inMonthly now e.2 = true) (hk : e.1 ∈ rotate_keep db listing now) :
    dlookup (monthlyKey e.2)
      (bdict monthlyKey (inMonthly now) (entriesOf (candidates db listing))) = some e := by
  rcases mem_keepOf.1 hk with ⟨e', he', heq, hd⟩ | ⟨k, v, hv, heq⟩ | ⟨k, v, hv, heq⟩
  · have he2 : (e.1, e'.2) ∈ entriesOf (candidates db listing) := by
      rw [← heq]; exact he'
    have hts : e'.2 = e.2 := entries_functional he2 he
    exact absurd hw (fun hw => not_daily_and_monthly (hts ▸ hd) hw)
  · obtain ⟨hm, hr, hkey⟩ := (bdict_inv _ _ _ (entries_pairwise db listing)).found k v hv
    have hv2 : (e.1, v.2) ∈ entriesOf (candidates db listing) := by
      rw [← heq]; exact hm
    have hts : v.2 = e.2 := entries_functional hv2 he
    exact absurd hw (fun hw => not_weekly_and_monthly (hts ▸ hr) hw)
  · obtain ⟨hm, hr, hkey⟩ := (bdict_inv _ _ _ (entries_pairwise db listing)).found k v hv
    have hv2 : (e.1, v.2) ∈ entriesOf (candidates db listing) := by
      rw [← heq]; exact hm
    have hts : v.2 = e.2 := entries_functional hv2 he
    have hve : v = e := Prod.ext heq hts
    rw [← hkey, hts, hve] at hv
    exact hv

/-! ### Claim theorems -/

/-- C1: weekly-range entries are bucketed by ISO (week-year, week) and
monthly-range entries by (year, month); every occupied bucket has
exactly one entry in the keep set, and that entry carries the bucket's
maximum timestamp. -/
theorem bucket_unique_survivor (db : String) (listing : List String) (now : Int)
    (k : Int × Int) :
    ((∃ e ∈ entriesOf (candidates db listing),
        inWeekly now e.2 = true ∧ weeklyKey e.2 = k) →
      ∃ e ∈ entriesOf (candidates db listing),
        inWeekly now e.2 = true ∧ weeklyKey e.2 = k ∧
        e.1 ∈ rotate_keep db listing now ∧
        ∀ e' ∈ entriesOf (candidates db listing),
          inWeekly now e'.2 = true → weeklyKey e'.2 = k →
            tsSec e'.2 ≤ tsSec e.2 ∧ (e'.1 ∈ rotate_keep db listing now → e' = e)) ∧
    ((∃ e ∈ entriesOf (candidates db listing),
        inMonthly now e.2 = true ∧ monthlyKey e.2 = k) →
      ∃ e ∈ entriesOf (candidates db listing),
        inMonthly now e.2 = true ∧ monthlyKey e.2 = k ∧
        e.1 ∈ rotate_keep db listing now ∧
        ∀ e' ∈ entriesOf (candidates db listing),
          inMonthly now e'.2 = true → monthlyKey e'.2 = k →
            tsSec e'.2 ≤ tsSec e.2 ∧ (e'.1 ∈ rotate_keep db listing now → e' = e)) := by
  have hBw := bdict_inv weeklyKey (inWeekly now) _ (entries_pairwise db listing)
  have hBm := bdict_inv monthlyKey (inMonthly now) _ (entries_pairwise db listing)
  constructor
  · rintro ⟨e0, he0, hw0, hk0⟩
    obtain ⟨v, hv⟩ := hBw.occ e0 he0 hw0
    rw [hk0] at hv
    obtain ⟨hm, hr, hkey⟩ := hBw.found k v hv
    have hkeep : v.1 ∈ rotate_keep db listing now :=
      mem_keepOf.2 (Or.inr (Or.inl ⟨k, v, hv, rfl⟩))
    refine ⟨v, hm, hr, hkey, hkeep, ?_⟩
    intro e' he' hr' hk'
    refine ⟨hBw.maxts k v hv e' he' hr' hk', ?_⟩
    intro hkept
    have hrep := kept_weekly_is_rep he' hr' hkept
    rw [hk'] at hrep
    rw [hrep] at hv
    exact Option.some.inj hv
  · rintro ⟨e0, he0, hw0, hk0⟩
    obtain ⟨v, hv⟩ := hBm.occ e0 he0 hw0
    rw [hk0] at hv
    obtain ⟨hm, hr, hkey⟩ := hBm.found k v hv
    have hkeep : v.1 ∈ rotate_keep db listing now :=
      mem_keepOf.2 (Or.inr (Or.inr ⟨k, v, hv, rfl⟩))
    refine ⟨v, hm, hr, hkey, hkeep, ?_⟩
    intro e' he' hr' hk'
    refine ⟨hBm.maxts k v hv e' he' hr' hk', ?_⟩
    intro hkept
    have hrep := kept_monthly_is_rep he' hr' hkept
    rw [hk'] at hrep
    rw [hrep] at hv
    exact Option.some.inj hv

/-- Witness for C1: two same-ISO-week entries; exactly one survives,
the one with the larger timestamp. -/
theorem bucket_unique_survivor_witness :
    ∃ e ∈ entriesOf (candidates "shop"
        ["shop_20250315_020000.zip", "shop_20250315_100000.zip"]),
      inWeekly (tsSec ⟨2025, 4, 10, 0, 0, 0⟩) e.2 = true ∧
      weeklyKey e.2 = weeklyKey ⟨2025, 3, 15, 2, 0, 0⟩ ∧
      e.1 ∈ rotate_keep "shop" ["shop_20250315_020000.zip", "shop_20250315_100000.zip"]
        (tsSec ⟨2025, 4, 10, 0, 0, 0⟩) ∧
      ∀ e' ∈ entriesOf (candidates "shop"
          ["shop_20250315_020000.zip", "shop_20250315_100000.zip"]),
        inWeekly (tsSec ⟨2025, 4, 10, 0, 0, 0⟩) e'.2 = true →
        weeklyKey e'.2 = weeklyKey ⟨2025, 3, 15, 2, 0, 0⟩ →
          tsSec e'.2 ≤ tsSec e.2 ∧
          (e'.1 ∈ rotate_keep "shop"
              ["shop_20250315_020000.zip", "shop_20250315_100000.zip"]
              (tsSec ⟨2025, 4, 10, 0, 0, 0⟩) → e' = e) :=
  (bucket_unique_survivor "shop" ["shop_20250315_020000.zip", "shop_20250315_100000.zip"]
    (tsSec ⟨2025, 4, 10, 0, 0, 0⟩) (weeklyKey ⟨2025, 3, 15, 2, 0, 0⟩)).1
    (by exact ⟨("shop_20250315_020000.zip", ⟨2025, 3, 15, 2, 0, 0⟩), by decide⟩)

/-- C2: every parsed entry whose timestamp satisfies
`timestamp >= now - 7 days` — including the exact boundary and entries
dated after `now` — is put in the keep set and is never deleted. -/
theorem daily_entries_always_kept (db : String) (listing : List String) (now : Int)
    (e : String × DateTime) (he : e ∈ entriesOf (candidates db listing))
    (hd : dailyCutoff now ≤ tsSec e.2) :
    e.1 ∈ rotate_keep db listing now ∧ e.1 ∉ rotate_deleted db listing now := by
  have hk : e.1 ∈ rotate_keep db listing now :=
    mem_keepOf.2 (Or.inl ⟨e, he, rfl, by simpa [inDaily] using hd⟩)
  exact ⟨hk, fun hdel => (mem_rotate_deleted.1 hdel).2 hk⟩

/-- Witness for C2: a one-day-old archive survives a rotation run. -/
theorem daily_entries_always_kept_witness :
    ("shop_20250409_020000.zip", (⟨2025, 4, 9, 2, 0, 0⟩ : DateTime)) ∈
        entriesOf (candidates "shop" ["shop_20250409_020000.zip"]) ∧
      ("shop_20250409_020000.zip" ∈
          rotate_keep "shop" ["shop_20250409_020000.zip"] (tsSec ⟨2025, 4, 10, 0, 0, 0⟩) ∧
        "shop_20250409_020000.zip" ∉
          rotate_deleted "shop" ["shop_20250409_020000.zip"]
            (tsSec ⟨2025, 4, 10, 0, 0, 0⟩)) :=
  ⟨by decide,
    daily_entries_always_kept "shop" ["shop_20250409_020000.zip"]
      (tsSec ⟨2025, 4, 10, 0, 0, 0⟩) ("shop_20250409_020000.zip", ⟨2025, 4, 9, 2, 0, 0⟩)
      (by decide) (by decide)⟩

/-- C3: the daily, weekly and monthly ranges are pairwise disjoint, and
a parsed entry strictly older than `now - 90 days` falls in no tier and
is always deleted. -/
theorem tiers_disjoint_expired_deleted (db : String) (listing : List String) (now : Int)
    (ts0 : DateTime) (e : String × DateTime)
    (he : e ∈ entriesOf (candidates db listing))
    (hold : tsSec e.2 < monthlyCutoff now) :
    (¬(inDaily now ts0 = true ∧ inWeekly now ts0 = true)) ∧
    (¬(inDaily now ts0 = true ∧ inMonthly now ts0 = true)) ∧
    (¬(inWeekly now ts0 = true ∧ inMonthly now ts0 = true)) ∧
    e.1 ∈ rotate_deleted db listing now ∧ e.1 ∉ rotate_keep db listing now := by
  have hnk : e.1 ∉ rotate_keep db listing now := by
    intro hk
    rcases kept_entry_in_range he hk with hr | hr | hr <;>
      · simp only [inDaily, inWeekly, inMonthly, dailyCutoff, weeklyCutoff,
          monthlyCutoff, decide_eq_true_eq] at hr
        simp only [monthlyCutoff] at hold
        omega
  refine ⟨?_, ?_, ?_, mem_rotate_deleted.2 ⟨⟨e.2, he⟩, hnk⟩, hnk⟩ <;>
    · rintro ⟨h1, h2⟩
      simp only [inDaily, inWeekly, inMonthly, dailyCutoff, weeklyCutoff,
        monthlyCutoff, decide_eq_true_eq] at h1 h2
      omega

/-- Witness for C3: a 99-day-old archive is deleted. -/
theorem tiers_disjoint_expired_deleted_witness :
    (¬(inDaily (tsSec ⟨2025, 4, 10, 0, 0, 0⟩) ⟨2025, 4, 9, 2, 0, 0⟩ = true ∧
        inWeekly (tsSec ⟨2025, 4, 10, 0, 0, 0⟩) ⟨2025, 4, 9, 2, 0, 0⟩ = true)) ∧
    (¬(inDaily (tsSec ⟨2025, 4, 10, 0, 0, 0⟩) ⟨2025, 4, 9, 2, 0, 0⟩ = true ∧
        inMonthly (tsSec ⟨2025, 4, 10, 0, 0, 0⟩) ⟨2025, 4, 9, 2, 0, 0⟩ = true)) ∧
    (¬(inWeekly (tsSec ⟨2025, 4, 10, 0, 0, 0⟩) ⟨2025, 4, 9, 2, 0, 0⟩ = true ∧
        inMonthly (tsSec ⟨2025, 4, 10, 0, 0, 0⟩) ⟨2025, 4, 9, 2, 0, 0⟩ = true)) ∧
    "shop_20250101_020000.zip" ∈
        rotate_deleted "shop" ["shop_20250101_020000.zip"] (tsSec ⟨2025, 4, 10, 0, 0, 0⟩) ∧
    "shop_20250101_020000.zip" ∉
        rotate_keep "shop" ["shop_20250101_020000.zip"] (tsSec ⟨2025, 4, 10, 0, 0, 0⟩) :=
  tiers_disjoint_expired_deleted "shop" ["shop_20250101_020000.zip"]
    (tsSec ⟨2025, 4, 10, 0, 0, 0⟩) ⟨2025, 4, 9, 2, 0, 0⟩
    ("shop_20250101_020000.zip", ⟨2025, 1, 1, 2, 0, 0⟩) (by decide) (by decide)

/-- C4: a file in the directory whose name fails to parse is excluded
from classification: it is neither in the keep set nor in the delete
set of a rotation run. -/
theorem unparsable_never_touched (db : String) (listing : List String) (now : Int)
    (f : String) (hf : parse_backup_timestamp f = none) :
    f ∉ rotate_keep db listing now ∧ f ∉ rotate_deleted db listing now := by
  constructor
  · intro hk
    obtain ⟨ts, hts⟩ := mem_keep_entry hk
    rw [(mem_entriesOf.1 hts).2] at hf
    exact Option.noConfusion hf
  · intro hd
    obtain ⟨⟨ts, hts⟩, _⟩ := mem_rotate_deleted.1 hd
    rw [(mem_entriesOf.1 hts).2] at hf
    exact Option.noConfusion hf

/-- Witness for C4: `shop_backup_final.zip` matches the glob but does
not parse, and survives untouched. -/
theorem unparsable_never_touched_witness :
    parse_backup_timestamp "shop_backup_final.zip" = none ∧
      ("shop_backup_final.zip" ∉
          rotate_keep "shop" ["shop_backup_final.zip", "shop_20250409_020000.zip"]
            (tsSec ⟨2025, 4, 10, 0, 0, 0⟩) ∧
        "shop_backup_final.zip" ∉
          rotate_deleted "shop" ["shop_backup_final.zip", "shop_20250409_020000.zip"]
            (tsSec ⟨2025, 4, 10, 0, 0, 0⟩)) :=
  ⟨by decide,
    unparsable_never_touched "shop"
      ["shop_backup_final.zip", "shop_20250409_020000.zip"]
      (tsSec ⟨2025, 4, 10, 0, 0, 0⟩) "shop_backup_final.zip" (by decide)⟩

/-- C6 counterexample: the claim fails for the pair of distinct
database names `shop` and `shop_x`.  The archive belonging to database
`shop_x` matches the glob `shop_*.zip` of a run for `shop`, parses, is
90+ days old, and is deleted by that run. -/
theorem cross_database_archive_deleted :
    "shop" ≠ "shop_x" ∧
      get_backup_name "shop_x" ⟨2020, 1, 1, 2, 0, 0⟩ ++ ".zip" =
        "shop_x_20200101_020000.zip" ∧
      "shop_x_20200101_020000.zip" ∈
        rotate_deleted "shop"
          ["shop_x_20200101_020000.zip", "shop_20250409_020000.zip"]
          (tsSec ⟨2025, 4, 10, 0, 0, 0⟩) :=
  ⟨by decide, by decide, by decide⟩

/-- C6 (amended): a rotation run for `db` only ever considers files
matching `<db>_*.zip`; any file whose name does not match that pattern
is never touched (neither kept nor deleted).  Archives of a different
database are protected exactly when their names do not match the
pattern — which can fail when one database name extended with `_` is a
prefix of the other archive's name. -/
theorem nonmatching_never_touched (db : String) (listing : List String) (now : Int)
    (f : String) (hf : globMatch db f = false) :
    f ∉ rotate_keep db listing now ∧ f ∉ rotate_deleted db listing now := by
  constructor
  · intro hk
    obtain ⟨ts, hts⟩ := mem_keep_entry hk
    have hg := (mem_candidates.1 (mem_entriesOf.1 hts).1).2
    rw [hf] at hg
    exact Bool.noConfusion hg
  · intro hd
    obtain ⟨⟨ts, hts⟩, _⟩ := mem_rotate_deleted.1 hd
    have hg := (mem_candidates.1 (mem_entriesOf.1 hts).1).2
    rw [hf] at hg
    exact Bool.noConfusion hg

/-- Witness for the amended C6: `notadb_20250409_020000.zip` does not
match the glob of a run for `shop` and is untouched. -/
theorem nonmatching_never_touched_witness :
    globMatch "shop" "notadb_20250409_020000.zip" = false ∧
      ("notadb_20250409_020000.zip" ∉
          rotate_keep "shop" ["notadb_20250409_020000.zip", "shop_20250101_020000.zip"]
            (tsSec ⟨2025, 4, 10, 0, 0, 0⟩) ∧
        "notadb_20250409_020000.zip" ∉
          rotate_deleted "shop"
            ["notadb_20250409_020000.zip", "shop_20250101_020000.zip"]
            (tsSec ⟨2025, 4, 10, 0, 0, 0⟩)) :=
  ⟨by decide,
    nonmatching_never_touched "shop"
      ["notadb_20250409_020000.zip", "shop_20250101_020000.zip"]
      (tsSec ⟨2025, 4, 10, 0, 0, 0⟩) "notadb_20250409_020000.zip" (by decide)⟩

theorem mem_entries_survivors {db : String} {listing : List String} {now : Int}
    {f : String} {ts : DateTime} :
    (f, ts) ∈ entriesOf (candidates db (survivors db listing now)) ↔
      (f, ts) ∈ entriesOf (candidates db listing) ∧ f ∈ rotate_keep db listing now := by
  rw [mem_entriesOf, mem_entriesOf, mem_candidates, mem_candidates]
  unfold survivors
  rw [List.mem_filter]
  simp only [decide_eq_true_eq]
  constructor
  · rintro ⟨⟨⟨hl, hnd⟩, hg⟩, hp⟩
    have hE1 : (f, ts) ∈ entriesOf (candidates db listing) :=
      mem_entriesOf.2 ⟨mem_candidates.2 ⟨hl, hg⟩, hp⟩
    have hk : f ∈ rotate_keep db listing now := by
      by_contra hnk
      exact hnd (mem_rotate_deleted.2 ⟨⟨ts, hE1⟩, hnk⟩)
    exact ⟨⟨⟨hl, hg⟩, hp⟩, hk⟩
  · rintro ⟨⟨⟨hl, hg⟩, hp⟩, hk⟩
    refine ⟨⟨⟨hl, ?_⟩, hg⟩, hp⟩
    intro hd
    exact (mem_rotate_deleted.1 hd).2 hk

/-- C7: rotation is idempotent — a second run on the directory left by
a first run (same `now`, no new archives) computes an empty delete
set. -/
theorem rotation_idempotent (db : String) (listing : List String) (now : Int) :
    rotate_deleted db (survivors db listing now) now = [] := by
  unfold rotate_deleted
  rw [List.filter_eq_nil_iff]
  intro f hf
  simp only [decide_eq_true_eq, Decidable.not_not]
  obtain ⟨e, he, rfl⟩ := List.mem_map.1 hf
  have he2 : (e.1, e.2) ∈ entriesOf (candidates db (survivors db listing now)) := he
  obtain ⟨hE1, hk1⟩ := mem_entries_survivors.1 he2
  rcases kept_entry_in_range hE1 hk1 with hr | hr | hr
  · exact mem_keepOf.2 (Or.inl ⟨e, he, rfl, hr⟩)
  · have hB2 := bdict_inv weeklyKey (inWeekly now)
      (entriesOf (candidates db (survivors db listing now)))
      (entries_pairwise db (survivors db listing now))
    obtain ⟨v2, hv2⟩ := hB2.occ e he hr
    obtain ⟨hm2, hr2, hkey2⟩ := hB2.found _ v2 hv2
    have hv2' : (v2.1, v2.2) ∈ entriesOf (candidates db (survivors db listing now)) := hm2
    obtain ⟨hv2E1, hv2k1⟩ := mem_entries_survivors.1 hv2'
    have hrepv : dlookup (weeklyKey v2.2)
        (bdict weeklyKey (inWeekly now) (entriesOf (candidates db listing))) = some v2 :=
      kept_weekly_is_rep hv2E1 hr2 hv2k1
    have hrepe : dlookup (weeklyKey e.2)
        (bdict weeklyKey (inWeekly now) (entriesOf (candidates db listing))) = some e :=
      kept_weekly_is_rep hE1 hr hk1
    rw [hkey2] at hrepv
    rw [hrepe] at hrepv
    obtain rfl := Option.some.inj hrepv
    exact mem_keepOf.2 (Or.inr (Or.inl ⟨weeklyKey e.2, e, hv2, rfl⟩))
  · have hB2 := bdict_inv monthlyKey (inMonthly now)
      (entriesOf (candidates db (survivors db listing now)))
      (entries_pairwise db (survivors db listing now))
    obtain ⟨v2, hv2⟩ := hB2.occ e he hr
    obtain ⟨hm2, hr2, hkey2⟩ := hB2.found _ v2 hv2
    have hv2' : (v2.1, v2.2) ∈ entriesOf (candidates db (survivors db listing now)) := hm2
    obtain ⟨hv2E1, hv2k1⟩ := mem_entries_survivors.1 hv2'
    have hrepv : dlookup (monthlyKey v2.2)
        (bdict monthlyKey (inMonthly now) (entriesOf (candidates db listing))) = some v2 :=
      kept_monthly_is_rep hv2E1 hr2 hv2k1
    have hrepe : dlookup (monthlyKey e.2)
        (bdict monthlyKey (inMonthly now) (entriesOf (candidates db listing))) = some e :=
      kept_monthly_is_rep hE1 hr hk1
    rw [hkey2] at hrepv
    rw [hrepe] at hrepv
    obtain rfl := Option.some.inj hrepv
    exact mem_keepOf.2 (Or.inr (Or.inr ⟨monthlyKey e.2, e, hv2, rfl⟩))

/-- C8: rotation is a pure function of the set of file names and `now`:
two listings that are permutations of each other produce identical keep
and delete sets. -/
theorem rotation_deterministic (db : String) (now : Int) (l1 l2 : List String)
    (hp : l1.Perm l2) :
    rotate_keep db l1 now = rotate_keep db l2 now ∧
      rotate_deleted db l1 now = rotate_deleted db l2 now := by
  have hc : candidates db l1 = candidates db l2 := by
    haveI := pathLe_isTotal
    haveI := pathLe_isTrans
    haveI := pathLe_isAntisymm
    have hs1 : List.Sorted (fun a b => pathLe a b = true) (candidates db l1) :=
      List.sorted_insertionSort _ _
    have hs2 : List.Sorted (fun a b => pathLe a b = true) (candidates db l2) :=
      List.sorted_insertionSort _ _
    have hperm : (candidates db l1).Perm (candidates db l2) :=
      (List.perm_insertionSort _ _).trans
        ((hp.filter _).trans (List.perm_insertionSort _ _).symm)
    exact List.eq_of_perm_of_sorted hperm hs1 hs2
  have hk : rotate_keep db l1 now = rotate_keep db l2 now := by
    unfold rotate_keep
    rw [hc]
  refine ⟨hk, ?_⟩
  unfold rotate_deleted
  rw [hc, hk]

/-- Witness for C8: swapping the enumeration order changes nothing. -/
theorem rotation_deterministic_witness :
    rotate_keep "shop" ["shop_20250409_020000.zip", "shop_20250101_020000.zip"]
        (tsSec ⟨2025, 4, 10, 0, 0, 0⟩) =
      rotate_keep "shop" ["shop_20250101_020000.zip", "shop_20250409_020000.zip"]
        (tsSec ⟨2025, 4, 10, 0, 0, 0⟩) ∧
    rotate_deleted "shop" ["shop_20250409_020000.zip", "shop_20250101_020000.zip"]
        (tsSec ⟨2025, 4, 10, 0, 0, 0⟩) =
      rotate_deleted "shop" ["shop_20250101_020000.zip", "shop_20250409_020000.zip"]
        (tsSec ⟨2025, 4, 10, 0, 0, 0⟩) :=
  rotation_deterministic "shop" (tsSec ⟨2025, 4, 10, 0, 0, 0⟩)
    ["shop_20250409_020000.zip", "shop_20250101_020000.zip"]
    ["shop_20250101_020000.zip", "shop_20250409_020000.zip"]
    (List.Perm.swap "shop_20250101_020000.zip" "shop_20250409_020000.zip" [])

/-- C9: the deletion loop treats every file of the delete set
independently: the result records each file with its own unlink
outcome (`none` = removed, `some reason` = failure caught by the
`try/except`), so one failure never prevents the remaining removals and
no exception escapes the loop. -/
theorem deletion_failures_isolated (db : String) (listing : List String) (now : Int)
    (unlink : String → Except String Unit) :
    deletePhase unlink (rotate_deleted db listing now) =
      (rotate_deleted db listing now).map fun f =>
        (f, match unlink f with | .ok _ => none | .error e => some e) := by
  generalize rotate_deleted db listing now = l
  induction l with
  | nil => rfl
  | cons f r ih =>
    cases hu : unlink f with
    | ok u => simp [deletePhase, hu, ih]
    | error e => simp [deletePhase, hu, ih]

/-- C10: within a weekly or monthly bucket the surviving entry has the
maximum timestamp, and among entries sharing that maximal timestamp it
is the one with the lexicographically smallest path (candidates are
iterated in sorted order, and a representative is replaced only by a
strictly greater timestamp). -/
theorem tie_break_smallest_path (db : String) (listing : List String) (now : Int)
    (k : Int × Int) :
    ((∃ e ∈ entriesOf (candidates db listing),
        inWeekly now e.2 = true ∧ weeklyKey e.2 = k) →
      ∃ v, dlookup k (bdict weeklyKey (inWeekly now)
            (entriesOf (candidates db listing))) = some v ∧
        v ∈ entriesOf (candidates db listing) ∧ inWeekly now v.2 = true ∧
        weeklyKey v.2 = k ∧ v.1 ∈ rotate_keep db listing now ∧
        ∀ e ∈ entriesOf (candidates db listing),
          inWeekly now e.2 = true → weeklyKey e.2 = k →
            tsSec e.2 ≤ tsSec v.2 ∧
            (tsSec e.2 = tsSec v.2 → pathLe v.1 e.1 = true)) ∧
    ((∃ e ∈ entriesOf (candidates db listing),
        inMonthly now e.2 = true ∧ monthlyKey e.2 = k) →
      ∃ v, dlookup k (bdict monthlyKey (inMonthly now)
            (entriesOf (candidates db listing))) = some v ∧
        v ∈ entriesOf (candidates db listing) ∧ inMonthly now v.2 = true ∧
        monthlyKey v.2 = k ∧ v.1 ∈ rotate_keep db listing now ∧
        ∀ e ∈ entriesOf (candidates db listing),
          inMonthly now e.2 = true → monthlyKey e.2 = k →
            tsSec e.2 ≤ tsSec v.2 ∧
            (tsSec e.2 = tsSec v.2 → pathLe v.1 e.1 = true)) := by
  have hBw := bdict_inv weeklyKey (inWeekly now) _ (entries_pairwise db listing)
  have hBm := bdict_inv monthlyKey (inMonthly now) _ (entries_pairwise db listing)
  constructor
  · rintro ⟨e0, he0, hw0, hk0⟩
    obtain ⟨v, hv⟩ := hBw.occ e0 he0 hw0
    rw [hk0] at hv
    obtain ⟨hm, hr, hkey⟩ := hBw.found k v hv
    refine ⟨v, hv, hm, hr, hkey,
      mem_keepOf.2 (Or.inr (Or.inl ⟨k, v, hv, rfl⟩)), ?_⟩
    intro e he hre hke
    exact ⟨hBw.maxts k v hv e he hre hke, hBw.minpath k v hv e he hre hke⟩
  · rintro ⟨e0, he0, hw0, hk0⟩
    obtain ⟨v, hv⟩ := hBm.occ e0 he0 hw0
    rw [hk0] at hv
    obtain ⟨hm, hr, hkey⟩ := hBm.found k v hv
    refine ⟨v, hv, hm, hr, hkey,
      mem_keepOf.2 (Or.inr (Or.inr ⟨k, v, hv, rfl⟩)), ?_⟩
    intro e he hre hke
    exact ⟨hBm.maxts k v hv e he hre hke, hBm.minpath k v hv e he hre hke⟩

/-- Witness for C10: two entries with the identical timestamp in one
weekly bucket; the lexicographically smaller path survives. -/
theorem tie_break_smallest_path_witness :
    ∃ v, dlookup (weeklyKey ⟨2025, 3, 15, 2, 0, 0⟩)
          (bdict weeklyKey (inWeekly (tsSec ⟨2025, 4, 10, 0, 0, 0⟩))
            (entriesOf (candidates "shop"
              ["shop_b_20250315_020000.zip", "shop_a_20250315_020000.zip"]))) = some v ∧
      v ∈ entriesOf (candidates "shop"
          ["shop_b_20250315_020000.zip", "shop_a_20250315_020000.zip"]) ∧
      inWeekly (tsSec ⟨2025, 4, 10, 0, 0, 0⟩) v.2 = true ∧
      weeklyKey v.2 = weeklyKey ⟨2025, 3, 15, 2, 0, 0⟩ ∧
      v.1 ∈ rotate_keep "shop" ["shop_b_20250315_020000.zip", "shop_a_20250315_020000.zip"]
        (tsSec ⟨2025, 4, 10, 0, 0, 0⟩) ∧
      ∀ e ∈ entriesOf (candidates "shop"
          ["shop_b_20250315_020000.zip", "shop_a_20250315_020000.zip"]),
        inWeekly (tsSec ⟨2025, 4, 10, 0, 0, 0⟩) e.2 = true →
        weeklyKey e.2 = weeklyKey ⟨2025, 3, 15, 2, 0, 0⟩ →
          tsSec e.2 ≤ tsSec v.2 ∧
          (tsSec e.2 = tsSec v.2 → pathLe v.1 e.1 = true) :=
  (tie_break_smallest_path "shop"
    ["shop_b_20250315_020000.zip", "shop_a_20250315_020000.zip"]
    (tsSec ⟨2025, 4, 10, 0, 0, 0⟩) (weeklyKey ⟨2025, 3, 15, 2, 0, 0⟩)).1
    (by exact ⟨("shop_a_20250315_020000.zip", ⟨2025, 3, 15, 2, 0, 0⟩), by decide⟩)

/-! ### Codec lemmas: the round trip on well-formed names -/

theorem digitVal_dchar {n : Nat} (h : n ≤ 9) : digitVal (dchar n) = some n := by
  interval_cases n <;> decide

theorem dchar_ne_dot {n : Nat} (h : dchar n = '.') : False := by
  unfold dchar at h
  split at h <;> exact absurd h (by decide)

theorem dchar_ne_underscore {n : Nat} (h : dchar n = '_') : False := by
  unfold dchar at h
  split at h <;> exact absurd h (by decide)

theorem pad2_no_dot {n : Nat} (h : ('.' : Char) ∈ pad2 n) : False := by
  rcases List.mem_cons.1 h with h | h
  · exact dchar_ne_dot h.symm
  · rcases List.mem_cons.1 h with h | h
    · exact dchar_ne_dot h.symm
    · exact absurd h (List.not_mem_nil _)

theorem pad4_no_dot {n : Nat} (h : ('.' : Char) ∈ pad4 n) : False := by
  rcases List.mem_cons.1 h with h | h
  · exact dchar_ne_dot h.symm
  · rcases List.mem_cons.1 h with h | h
    · exact dchar_ne_dot h.symm
    · rcases List.mem_cons.1 h with h | h
      · exact dchar_ne_dot h.symm
      · rcases List.mem_cons.1 h with h | h
        · exact dchar_ne_dot h.symm
        · exact absurd h (List.not_mem_nil _)

theorem pad2_no_underscore {n : Nat} (h : ('_' : Char) ∈ pad2 n) : False := by
  rcases List.mem_cons.1 h with h | h
  · exact dchar_ne_underscore h.symm
  · rcases List.mem_cons.1 h with h | h
    · exact dchar_ne_underscore h.symm
    · exact absurd h (List.not_mem_nil _)

theorem pad4_no_underscore {n : Nat} (h : ('_' : Char) ∈ pad4 n) : False := by
  rcases List.mem_cons.1 h with h | h
  · exact dchar_ne_underscore h.symm
  · rcases List.mem_cons.1 h with h | h
    · exact dchar_ne_underscore h.symm
    · rcases List.mem_cons.1 h with h | h
      · exact dchar_ne_underscore h.symm
      · rcases List.mem_cons.1 h with h | h
        · exact dchar_ne_underscore h.symm
        · exact absurd h (List.not_mem_nil _)

theorem fmtCore_no_dot {t : DateTime} (h : ('.' : Char) ∈ fmtCore t) : False := by
  unfold fmtCore at h
  rcases List.mem_append.1 h with h | h
  · rcases List.mem_append.1 h with h | h
    · rcases List.mem_append.1 h with h | h
      · exact pad4_no_dot h
      · exact pad2_no_dot h
    · exact pad2_no_dot h
  · rcases List.mem_cons.1 h with h | h
    · exact absurd h (by decide)
    · rcases List.mem_append.1 h with h | h
      · rcases List.mem_append.1 h with h | h
        · exact pad2_no_dot h
        · exact pad2_no_dot h
      · exact pad2_no_dot h

theorem lastDotIdx_eq_none {l : List Char} (h : ('.' : Char) ∉ l) :
    lastDotIdx l = none := by
  induction l with
  | nil => rfl
  | cons c r ih =>
    simp only [List.mem_cons, not_or] at h
    have hc : ¬c = '.' := fun he => h.1 he.symm
    simp [lastDotIdx, ih h.2, hc]

theorem stemCore_no_dot {l : List Char} (h : ('.' : Char) ∉ l) : stemCore l = l := by
  simp [stemCore, lastDotIdx_eq_none h]

theorem splitU_ne_nil : ∀ l : List Char, splitU l ≠ [] := by
  intro l
  induction l with
  | nil => simp [splitU]
  | cons c r ih =>
    by_cases h : c = '_'
    · simp [splitU, h]
    · simp only [splitU, if_neg h]
      cases hh : splitU r with
      | nil => simp
      | cons p ps => simp

theorem splitU_cons_underscore (r : List Char) :
    splitU ('_' :: r) = [] :: splitU r := by
  simp [splitU]

theorem splitU_cons_ne {c : Char} (h : ¬c = '_') (r : List Char) :
    splitU (c :: r) =
      match splitU r with
      | [] => [[c]]
      | p :: ps => (c :: p) :: ps := by
  simp [splitU, h]

theorem splitU_append_underscore : ∀ a b : List Char,
    splitU (a ++ '_' :: b) = splitU a ++ splitU b := by
  intro a b
  induction a with
  | nil => simp [splitU]
  | cons c r ih =>
    by_cases h : c = '_'
    · subst h
      rw [List.cons_append, splitU_cons_underscore, splitU_cons_underscore, ih,
        List.cons_append]
    · rw [List.cons_append, splitU_cons_ne h, splitU_cons_ne h, ih]
      cases hh : splitU r with
      | nil => exact absurd hh (splitU_ne_nil r)
      | cons p ps => simp

theorem splitU_no_underscore : ∀ {l : List Char}, ('_' : Char) ∉ l → splitU l = [l] := by
  intro l
  induction l with
  | nil => intro _; rfl
  | cons c r ih =>
    intro h
    simp only [List.mem_cons, not_or] at h
    have hc : ¬c = '_' := fun he => h.1 he.symm
    simp [splitU, hc, ih h.2]

theorem lastTwo_append_pair {α : Type} (xs : List α) (a b : α) :
    lastTwo (xs ++ [a, b]) = [a, b] := by
  unfold lastTwo
  have h : (xs ++ [a, b]).length - 2 = xs.length := by simp
  rw [h]
  exact List.drop_left xs [a, b]

theorem joinU_pair (a b : List Char) : joinU [a, b] = a ++ '_' :: b := rfl

/-! ### Evaluating the strptime pattern on zero-padded output -/

theorem runAlts_cons_some {a : StrAlt} {rest : List StrAlt}
    {k : List Char → Option (List Nat × List Char)} {s : List Char} {v : Nat}
    {r : List Char} {vs : List Nat} {r2 : List Char}
    (ha : a s = some (v, r)) (hk : k r = some (vs, r2)) :
    runAlts (a :: rest) k s = some (v :: vs, r2) := by
  simp only [runAlts, ha, hk]

theorem runAlts_cons_none {a : StrAlt} {rest : List StrAlt}
    {k : List Char → Option (List Nat × List Char)} {s : List Char}
    (ha : a s = none) : runAlts (a :: rest) k s = runAlts rest k s := by
  simp only [runAlts, ha]

theorem matchDigit_dchar_pos (lo hi n : Nat) (r : List Char) (h9 : n ≤ 9)
    (hlo : lo ≤ n) (hhi : n ≤ hi) :
    matchDigit lo hi (dchar n :: r) = some (n, r) := by
  simp only [matchDigit, digitVal_dchar h9]
  rw [if_pos ⟨hlo, hhi⟩]

theorem matchDigit_dchar_neg (lo hi n : Nat) (r : List Char) (h9 : n ≤ 9)
    (h : ¬(lo ≤ n ∧ n ≤ hi)) :
    matchDigit lo hi (dchar n :: r) = none := by
  simp only [matchDigit, digitVal_dchar h9]
  rw [if_neg h]

theorem seq2_some {a b : StrAlt} {s r r2 : List Char} {v w : Nat}
    (ha : a s = some (v, r)) (hb : b r = some (w, r2)) :
    seq2 a b s = some (v * 10 + w, r2) := by
  simp only [seq2, ha, hb]

theorem seq2_none1 {a b : StrAlt} {s : List Char} (ha : a s = none) :
    seq2 a b s = none := by
  simp only [seq2, ha]

theorem seq2_pad2_pos (a1 a2 b1 b2 n : Nat) (r : List Char)
    (hA1 : a1 ≤ n / 10) (hA2 : n / 10 ≤ a2) (hB1 : b1 ≤ n % 10) (hB2 : n % 10 ≤ b2)
    (h99 : n ≤ 99) :
    seq2 (matchDigit a1 a2) (matchDigit b1 b2) (pad2 n ++ r) = some (n, r) := by
  have hp : pad2 n ++ r = dchar (n / 10) :: dchar (n % 10) :: r := rfl
  rw [hp]
  have hA := matchDigit_dchar_pos a1 a2 (n / 10) (dchar (n % 10) :: r)
    (by omega) hA1 hA2
  have hB := matchDigit_dchar_pos b1 b2 (n % 10) r (by omega) hB1 hB2
  have hs := seq2_some hA hB
  have hval : n / 10 * 10 + n % 10 = n := by omega
  rw [hval] at hs
  exact hs

theorem seq2_pad2_neg (a1 a2 b1 b2 n : Nat) (r : List Char) (h99 : n ≤ 99)
    (hA : ¬(a1 ≤ n / 10 ∧ n / 10 ≤ a2)) :
    seq2 (matchDigit a1 a2) (matchDigit b1 b2) (pad2 n ++ r) = none := by
  have hp : pad2 n ++ r = dchar (n / 10) :: dchar (n % 10) :: r := rfl
  rw [hp]
  exact seq2_none1 (matchDigit_dchar_neg a1 a2 (n / 10) _ (by omega) hA)

theorem matchYear_pad4 {y : Nat} (h : y ≤ 9999) (r : List Char) :
    matchYear (pad4 y ++ r) = some (y, r) := by
  have hp : pad4 y ++ r =
      dchar (y / 1000) :: dchar (y / 100 % 10) :: dchar (y / 10 % 10) ::
        dchar (y % 10) :: r := rfl
  rw [hp]
  have e1 := matchDigit_dchar_pos 0 9 (y / 1000)
    (dchar (y / 100 % 10) :: dchar (y / 10 % 10) :: dchar (y % 10) :: r)
    (by omega) (by omega) (by omega)
  have e2 := matchDigit_dchar_pos 0 9 (y / 100 % 10)
    (dchar (y / 10 % 10) :: dchar (y % 10) :: r) (by omega) (by omega) (by omega)
  have e3 := matchDigit_dchar_pos 0 9 (y / 10 % 10) (dchar (y % 10) :: r)
    (by omega) (by omega) (by omega)
  have e4 := matchDigit_dchar_pos 0 9 (y % 10) r (by omega) (by omega) (by omega)
  simp only [matchYear, e1, e2, e3, e4]
  have hval : ((y / 1000 * 10 + y / 100 % 10) * 10 + y / 10 % 10) * 10 + y % 10 = y := by
    omega
  rw [hval]

theorem runAlts_month {m : Nat} (h1 : 1 ≤ m) (h2 : m ≤ 12)
    {k : List Char → Option (List Nat × List Char)} {r : List Char}
    {vs : List Nat} {r2 : List Char} (hk : k r = some (vs, r2)) :
    runAlts altsMonth k (pad2 m ++ r) = some (m :: vs, r2) := by
  unfold altsMonth
  by_cases hm : m ≤ 9
  · rw [runAlts_cons_none (seq2_pad2_neg 1 1 0 2 m r (by omega) (by omega))]
    exact runAlts_cons_some
      (seq2_pad2_pos 0 0 1 9 m r (by omega) (by omega) (by omega) (by omega) (by omega)) hk
  · exact runAlts_cons_some
      (seq2_pad2_pos 1 1 0 2 m r (by omega) (by omega) (by omega) (by omega) (by omega)) hk

theorem runAlts_day {d : Nat} (h1 : 1 ≤ d) (h2 : d ≤ 31)
    {k : List Char → Option (List Nat × List Char)} {r : List Char}
    {vs : List Nat} {r2 : List Char} (hk : k r = some (vs, r2)) :
    runAlts altsDay k (pad2 d ++ r) = some (d :: vs, r2) := by
  unfold altsDay
  by_cases hd9 : d ≤ 9
  · rw [runAlts_cons_none (seq2_pad2_neg 3 3 0 1 d r (by omega) (by omega))]
    rw [runAlts_cons_none (seq2_pad2_neg 1 2 0 9 d r (by omega) (by omega))]
    exact runAlts_cons_some
      (seq2_pad2_pos 0 0 1 9 d r (by omega) (by omega) (by omega) (by omega) (by omega)) hk
  · by_cases hd29 : d ≤ 29
    · rw [runAlts_cons_none (seq2_pad2_neg 3 3 0 1 d r (by omega) (by omega))]
      exact runAlts_cons_some
        (seq2_pad2_pos 1 2 0 9 d r (by omega) (by omega) (by omega) (by omega) (by omega)) hk
    · exact runAlts_cons_some
        (seq2_pad2_pos 3 3 0 1 d r (by omega) (by omega) (by omega) (by omega) (by omega)) hk

theorem runAlts_hour {h : Nat} (h2 : h ≤ 23)
    {k : List Char → Option (List Nat × List Char)} {r : List Char}
    {vs : List Nat} {r2 : List Char} (hk : k r = some (vs, r2)) :
    runAlts altsHour k (pad2 h ++ r) = some (h :: vs, r2) := by
  unfold altsHour
  by_cases hh : h ≤ 19
  · rw [runAlts_cons_none (seq2_pad2_neg 2 2 0 3 h r (by omega) (by omega))]
    exact runAlts_cons_some
      (seq2_pad2_pos 0 1 0 9 h r (by omega) (by omega) (by omega) (by omega) (by omega)) hk
  · exact runAlts_cons_some
      (seq2_pad2_pos 2 2 0 3 h r (by omega) (by omega) (by omega) (by omega) (by omega)) hk

theorem runAlts_min {mi : Nat} (h2 : mi ≤ 59)
    {k : List Char → Option (List Nat × List Char)} {r : List Char}
    {vs : List Nat} {r2 : List Char} (hk : k r = some (vs, r2)) :
    runAlts altsMin k (pad2 mi ++ r) = some (mi :: vs, r2) := by
  unfold altsMin
  exact runAlts_cons_some
    (seq2_pad2_pos 0 5 0 9 mi r (by omega) (by omega) (by omega) (by omega) (by omega)) hk

theorem runAlts_sec {sec : Nat} (h2 : sec ≤ 59)
    {k : List Char → Option (List Nat × List Char)} {r : List Char}
    {vs : List Nat} {r2 : List Char} (hk : k r = some (vs, r2)) :
    runAlts altsSec k (pad2 sec ++ r) = some (sec :: vs, r2) := by
  unfold altsSec
  rw [runAlts_cons_none (seq2_pad2_neg 6 6 0 1 sec r (by omega) (by omega))]
  exact runAlts_cons_some
    (seq2_pad2_pos 0 5 0 9 sec r (by omega) (by omega) (by omega) (by omega) (by omega)) hk

theorem daysInMonth_le_31 (y m : Nat) : daysInMonth y m ≤ 31 := by
  unfold daysInMonth
  split
  · omega
  · by_cases hm : m < 13
    · unfold monthDays
      interval_cases m <;> simp
    · rw [List.getD_eq_default]
      · omega
      · simp [monthDays]
        omega

theorem strptime_fmtCore {t : DateTime} (hv : t.Valid) :
    strptimeYmdHMS (fmtCore t) = some t := by
  obtain ⟨h1, h2, h3, h4, h5, h6, h7, h8, h9⟩ := hv
  have hS : runPat [altsSec] (pad2 t.second) = some ([t.second], []) := by
    show runAlts altsSec (runPat []) (pad2 t.second) = some ([t.second], [])
    have hbase : runPat [] ([] : List Char) = some ([], []) := rfl
    have := runAlts_sec h9 hbase
    simpa using this
  have hMi : runPat [altsMin, altsSec] (pad2 t.minute ++ pad2 t.second) =
      some ([t.minute, t.second], []) := by
    show runAlts altsMin (runPat [altsSec]) (pad2 t.minute ++ pad2 t.second) = _
    exact runAlts_min h8 hS
  have hH : runPat [altsHour, altsMin, altsSec]
      (pad2 t.hour ++ (pad2 t.minute ++ pad2 t.second)) =
      some ([t.hour, t.minute, t.second], []) := by
    show runAlts altsHour (runPat [altsMin, altsSec])
      (pad2 t.hour ++ (pad2 t.minute ++ pad2 t.second)) = _
    exact runAlts_hour h7 hMi
  have hL : runPat [[matchLit '_'], altsHour, altsMin, altsSec]
      ('_' :: (pad2 t.hour ++ (pad2 t.minute ++ pad2 t.second))) =
      some ([0, t.hour, t.minute, t.second], []) := by
    show runAlts [matchLit '_'] (runPat [altsHour, altsMin, altsSec])
      ('_' :: (pad2 t.hour ++ (pad2 t.minute ++ pad2 t.second))) = _
    refine runAlts_cons_some ?_ hH
    simp [matchLit]
  have hD : runPat [altsDay, [matchLit '_'], altsHour, altsMin, altsSec]
      (pad2 t.day ++ ('_' :: (pad2 t.hour ++ (pad2 t.minute ++ pad2 t.second)))) =
      some ([t.day, 0, t.hour, t.minute, t.second], []) := by
    show runAlts altsDay (runPat [[matchLit '_'], altsHour, altsMin, altsSec])
      (pad2 t.day ++ ('_' :: (pad2 t.hour ++ (pad2 t.minute ++ pad2 t.second)))) = _
    exact runAlts_day h5 (le_trans h6 (daysInMonth_le_31 _ _)) hL
  have hMo : runPat [altsMonth, altsDay, [matchLit '_'], altsHour, altsMin, altsSec]
      (pad2 t.month ++ (pad2 t.day ++
        ('_' :: (pad2 t.hour ++ (pad2 t.minute ++ pad2 t.second))))) =
      some ([t.month, t.day, 0, t.hour, t.minute, t.second], []) := by
    show runAlts altsMonth (runPat [altsDay, [matchLit '_'], altsHour, altsMin, altsSec])
      (pad2 t.month ++ (pad2 t.day ++
        ('_' :: (pad2 t.hour ++ (pad2 t.minute ++ pad2 t.second))))) = _
    exact runAlts_month h3 h4 hD
  have hY : runPat fmtFields
      (pad4 t.year ++ (pad2 t.month ++ (pad2 t.day ++
        ('_' :: (pad2 t.hour ++ (pad2 t.minute ++ pad2 t.second)))))) =
      some ([t.year, t.month, t.day, 0, t.hour, t.minute, t.second], []) := by
    show runAlts [matchYear]
      (runPat [altsMonth, altsDay, [matchLit '_'], altsHour, altsMin, altsSec])
      (pad4 t.year ++ (pad2 t.month ++ (pad2 t.day ++
        ('_' :: (pad2 t.hour ++ (pad2 t.minute ++ pad2 t.second)))))) = _
    exact runAlts_cons_some (matchYear_pad4 h2 _) hMo
  have hshape : fmtCore t =
      pad4 t.year ++ (pad2 t.month ++ (pad2 t.day ++
        ('_' :: (pad2 t.hour ++ (pad2 t.minute ++ pad2 t.second))))) := by
    simp [fmtCore, List.append_assoc]
  rw [hshape]
  simp only [strptimeYmdHMS, hY]
  rw [if_pos ⟨h1, h6, h9⟩]

/-- C5 counterexample: the claim's precondition only excludes the path
separator, but a database name containing a dot already breaks the
round trip: `Path(...).stem` cuts the encoded name at its last dot, so
decoding returns `none` rather than the original instant. -/
theorem roundtrip_fails_dotted_name :
    DateTime.Valid ⟨2025, 1, 5, 2, 0, 0⟩ ∧
      ('/' : Char) ∉ "my.db".toList ∧
      parse_backup_timestamp (get_backup_name "my.db" ⟨2025, 1, 5, 2, 0, 0⟩) = none :=
  ⟨by decide, by decide, by decide⟩

/-- C5 (amended): for any database name containing neither `'.'` nor
the path separator `'/'`, and any valid whole-second instant, decoding
the encoded filename stem returns exactly the original instant. -/
theorem roundtrip_amended (db : String) (t : DateTime) (hv : t.Valid)
    (hdot : ('.' : Char) ∉ db.toList) (_hsep : ('/' : Char) ∉ db.toList) :
    parse_backup_timestamp (get_backup_name db t) = some t := by
  have hTL : (get_backup_name db t).toList = db.toList ++ '_' :: fmtCore t := by
    simp only [get_backup_name, String.toList, String.data_append]
    simp
  unfold parse_backup_timestamp
  rw [hTL]
  have hnodot : ('.' : Char) ∉ db.toList ++ '_' :: fmtCore t := by
    intro hm
    rcases List.mem_append.1 hm with hm | hm
    · exact hdot hm
    · rcases List.mem_cons.1 hm with hm | hm
      · exact absurd hm (by decide)
      · exact fmtCore_no_dot hm
  have hA : ('_' : Char) ∉ pad4 t.year ++ pad2 t.month ++ pad2 t.day := by
    intro hm
    rcases List.mem_append.1 hm with hm | hm
    · rcases List.mem_append.1 hm with hm | hm
      · exact pad4_no_underscore hm
      · exact pad2_no_underscore hm
    · exact pad2_no_underscore hm
  have hB : ('_' : Char) ∉ pad2 t.hour ++ pad2 t.minute ++ pad2 t.second := by
    intro hm
    rcases List.mem_append.1 hm with hm | hm
    · rcases List.mem_append.1 hm with hm | hm
      · exact pad2_no_underscore hm
      · exact pad2_no_underscore hm
    · exact pad2_no_underscore hm
  have hsplit : splitU (db.toList ++ '_' :: fmtCore t) =
      splitU db.toList ++
        [pad4 t.year ++ pad2 t.month ++ pad2 t.day,
          pad2 t.hour ++ pad2 t.minute ++ pad2 t.second] := by
    rw [show fmtCore t = (pad4 t.year ++ pad2 t.month ++ pad2 t.day) ++
      '_' :: (pad2 t.hour ++ pad2 t.minute ++ pad2 t.second) from rfl]
    rw [splitU_append_underscore, splitU_append_underscore]
    rw [splitU_no_underscore hA, splitU_no_underscore hB]
    simp
  unfold parseCore
  rw [stemCore_no_dot hnodot, hsplit]
  have hlen : ¬(splitU db.toList ++
      [pad4 t.year ++ pad2 t.month ++ pad2 t.day,
        pad2 t.hour ++ pad2 t.minute ++ pad2 t.second]).length < 2 := by
    simp
  rw [if_neg hlen, lastTwo_append_pair, joinU_pair]
  rw [show (pad4 t.year ++ pad2 t.month ++ pad2 t.day) ++
    '_' :: (pad2 t.hour ++ pad2 t.minute ++ pad2 t.second) = fmtCore t from rfl]
  exact strptime_fmtCore hv

/-- Witness for the amended C5: the round trip on `shop` at
2025-01-05 02:00:00. -/
theorem roundtrip_amended_witness :
    parse_backup_timestamp (get_backup_name "shop" ⟨2025, 1, 5, 2, 0, 0⟩) =
      some ⟨2025, 1, 5, 2, 0, 0⟩ :=
  roundtrip_amended "shop" ⟨2025, 1, 5, 2, 0, 0⟩ (by decide) (by decide) (by decide)

end OdooGuard
